import Mathlib

/-!
Verification of the document-translation pipeline (Express backend, `server.js`).

Strings are modelled as lists of UTF-16 code units (`List Nat`), since the
JavaScript source manipulates strings per UTF-16 code unit
(`text.split('')`, `charCodeAt(0)`).  Slide XML content is modelled at the
granularity of the `/<a:t>([^<]+)<\/a:t>/g` regex: a slide part's content is
a list of segments, each either raw text lying between matches or the
captured group of one match.  Both the extraction pass and the reassembly
pass of the source walk exactly these matches, in order, so the segment
list is the common shallow embedding of both traversals.  Page-coordinate
arithmetic of the PDF layout is carried out in `ℚ`; the source uses IEEE
doubles, whose additions and subtractions of these small quantities are
exact, so `ℚ` reflects them faithfully.
-/

/-- The set of code units treated as whitespace by JavaScript's
`String.prototype.trim` and by the `\s` regex class. -/
def jsSpace (c : Nat) : Bool :=
  c = 9 || c = 10 || c = 11 || c = 12 || c = 13 || c = 32 || c = 160 ||
  c = 5760 || (8192 ≤ c && c ≤ 8202) || c = 8232 || c = 8233 ||
  c = 8239 || c = 8287 || c = 12288 || c = 65279

/-- Line terminators: the code units on which JavaScript's `.` regex atom
does not match (and `\n`, on which responses are split). -/
def isLineTerm (c : Nat) : Bool :=
  c = 10 || c = 13 || c = 8232 || c = 8233

/-- The `\d` regex class: ASCII decimal digits. -/
def isDigitCh (c : Nat) : Bool :=
  48 ≤ c && c ≤ 57

/-- Truthiness of `text.trim()`: true iff the string has a non-whitespace unit.
Extraction (`if (text.trim())`) and reassembly (`if (originalText)` after
`p1.trim()`) both use only this truthiness test. -/
def trimNonempty (t : List Nat) : Bool :=
  t.any (fun c => !jsSpace c)

/-- The fixed substitution table `charMap` of `cleanText`, as pairs of key
code unit and value string.  Keys, in source order: ı İ ğ Ğ ü Ü ş Ş ö Ö ç Ç,
curly quotes, en/em dash, ellipsis, ™ © ®; values are their ASCII images. -/
def charMapPairs : List (Nat × List Nat) :=
  [(305, [105]), (304, [73]), (287, [103]), (286, [71]), (252, [117]), (220, [85]),
   (351, [115]), (350, [83]), (246, [111]), (214, [79]), (231, [99]), (199, [67]),
   (8220, [34]), (8221, [34]), (8216, [39]), (8217, [39]), (8211, [45]), (8212, [45]),
   (8230, [46, 46, 46]), (8482, [40, 84, 77, 41]), (169, [40, 67, 41]), (174, [40, 82, 41])]

/-- The object lookup `charMap[char]` (keys are distinct, so ordered first
match is exactly the object lookup). -/
def charSub (c : Nat) : Option (List Nat) :=
  (charMapPairs.find? fun p => p.1 == c).map Prod.snd

/-- One unit of `cleanText`: `charMap[char] || (charCodeAt(0) > 127 ? '?' : char)`. -/
def cleanChar (c : Nat) : List Nat :=
  match charSub c with
  | some s => s
  | none => if 127 < c then [63] else [c]

/-- The sanitizer `cleanText`: per-unit map followed by join.  `cleanText [] = []`
models the `if (!text) return ""` guard and the empty split alike. -/
def cleanText (t : List Nat) : List Nat :=
  (t.map cleanChar).flatten

/-- The code units of all substitution-table values (the possible images of
a mapped character). -/
def subImageChars : List Nat :=
  [105, 73, 103, 71, 117, 85, 115, 83, 111, 79, 99, 67, 34, 39, 45, 46, 40, 84, 77, 41, 82]

/-- The two processing modes of `POST /api/translate`. -/
inductive DocFormat
  | pptx
  | pdf
deriving DecidableEq

/-- Lowercasing `toLowerCase`, modelled on the ASCII range (filenames in the claims are
ASCII). -/
def asciiLower (c : Nat) : Nat :=
  if 65 ≤ c ∧ c ≤ 90 then c + 32 else c

/-- Lowercasing of a filename, unit by unit. -/
def lowerName (n : List Nat) : List Nat :=
  n.map asciiLower

/-- The code units of the literal ".pptx". -/
def pptxSuf : List Nat := [46, 112, 112, 116, 120]

/-- The code units of the literal ".pdf". -/
def pdfSuf : List Nat := [46, 112, 100, 102]

/-- The dispatch of `POST /api/translate`:
`req.file.originalname.toLowerCase().endsWith('.pptx')` selects PPTX mode,
and every other filename goes to `handlePdfTranslation`. -/
def routeFormat (name : List Nat) : DocFormat :=
  if pptxSuf.isSuffixOf (lowerName name) then DocFormat.pptx else DocFormat.pdf

/-- Decimal digit expansion of a nonnegative integer, as in `String(n)`: fuel-driven so that it reduces
definitionally. -/
def decReprAux : Nat → Nat → List Nat
  | 0, _ => []
  | fuel + 1, n =>
    if n < 10 then [48 + n] else decReprAux fuel (n / 10) ++ [48 + n % 10]

/-- Canonical decimal representation of a natural number, as code units.
This is the key under which JavaScript stores `translations[n]` for a
number `n`. -/
def decRepr (n : Nat) : List Nat :=
  decReprAux (n + 1) n

/-- Numeric value of a digit string (the integer a matched `\d+` denotes). -/
def natOfDigits (ds : List Nat) : Nat :=
  ds.foldl (fun a d => 10 * a + (d - 48)) 0

/-- String splitting `split(sep)` for a single-unit separator.  The empty
string splits to `[""]`, as in JavaScript. -/
def splitSep (sep : Nat) : List Nat → List (List Nat)
  | [] => [[]]
  | c :: cs =>
    match splitSep sep cs with
    | [] => [[]]
    | w :: ws => if c = sep then [] :: w :: ws else (c :: w) :: ws

/-- Array joining `join(sep)` for a single-unit separator. -/
def joinSep (sep : Nat) : List (List Nat) → List Nat
  | [] => []
  | [l] => l
  | l :: ls => l ++ sep :: joinSep sep ls

/-- The `translations` object: a mutable map from property-key strings to
strings.  JavaScript object property keys are strings, so the map is keyed
by the raw digit string captured from a response line. -/
def TMap : Type := List Nat → Option (List Nat)

/-- The initial empty `translations = {}`. -/
def emptyTM : TMap := fun _ => none

/-- Property assignment `translations[key] = value`. -/
def updateTM (m : TMap) (k v : List Nat) : TMap :=
  fun q => if q = k then some v else m q

/-- Property lookup `translations[key]`. -/
def lookupTM (m : TMap) (k : List Nat) : Option (List Nat) :=
  m k

/-- The response-line parser `line.match(/^\[(\d+)\]:\s*(.*)/)`: a leading
bracketed digit string, a colon, greedily skipped whitespace, then every
following unit up to the first line terminator (`.` does not match line
terminators, and the regex has no end anchor). -/
def parseLine (line : List Nat) : Option (List Nat × List Nat) :=
  match line with
  | 91 :: rest =>
    if (rest.takeWhile isDigitCh).isEmpty then none
    else
      match rest.dropWhile isDigitCh with
      | 93 :: 58 :: rest2 =>
        some (rest.takeWhile isDigitCh,
              (rest2.dropWhile jsSpace).takeWhile (fun c => !isLineTerm c))
      | _ => none
  | _ => none

/-- Processing of one response line: a parsed line overwrites the entry at
its key, an unparsable line is discarded. -/
def applyRespLine (m : TMap) (line : List Nat) : TMap :=
  match parseLine line with
  | some kv => updateTM m kv.1 kv.2
  | none => m

/-- Processing of one oracle response: `translatedChunk.split('\n')`
followed by the per-line `forEach`. -/
def applyResponse (m : TMap) (resp : List Nat) : TMap :=
  (splitSep 10 resp).foldl applyRespLine m

/-- The result of the latest parsed line with the given key, if any, in a
list of response lines. -/
def lastValueFor (lines : List (List Nat)) (k : List Nat) : Option (List Nat) :=
  (((lines.filterMap parseLine).filter (fun p => p.1 == k)).getLast?).map (fun p => p.2)

/-- One segment of a slide part's XML content: either text between matches
of `/<a:t>([^<]+)<\/a:t>/g`, or the captured group of one match. -/
inductive SlideSeg
  | raw (s : List Nat)
  | run (t : List Nat)
deriving DecidableEq

/-- One entry of the PPTX zip archive: its entry name and its content. -/
structure PptxPart where
  name : List Nat
  segs : List SlideSeg
deriving DecidableEq

/-- The code units of the literal "ppt/slides/slide". -/
def slideNamePre : List Nat :=
  [112, 112, 116, 47, 115, 108, 105, 100, 101, 115, 47, 115, 108, 105, 100, 101]

/-- The code units of the literal ".xml". -/
def xmlSuf : List Nat := [46, 120, 109, 108]

/-- The slide-part filter of both traversals:
`entry.entryName.startsWith('ppt/slides/slide') && entry.entryName.endsWith('.xml')`. -/
def isSlideName (n : List Nat) : Bool :=
  slideNamePre.isPrefixOf n && xmlSuf.isSuffixOf n

/-- Extraction inside one slide part: each matched run whose text has a
nonempty trim is collected (untrimmed); others are skipped and consume no
identifier. -/
def extractRunTexts (segs : List SlideSeg) : List (List Nat) :=
  segs.filterMap fun s =>
    match s with
    | SlideSeg.raw _ => none
    | SlideSeg.run t => if trimNonempty t then some t else none

/-- The extraction pass over the whole archive (`allText`): slide parts in
enumeration order, matches in occurrence order. -/
def extractParts (ps : List PptxPart) : List (List Nat) :=
  ((ps.filter fun p => isSlideName p.name).map fun p => extractRunTexts p.segs).flatten

/-- The replacement callback threaded over one slide part's matches, with
the running `currentTextIdx`: a trim-nonempty run takes
`translations[currentTextIdx++] || p1` and is rewritten to its `cleanText`;
a whitespace-only run is returned unchanged and consumes no id. -/
def replaceRuns (tm : TMap) : List SlideSeg → Nat → List SlideSeg × Nat
  | [], idx => ([], idx)
  | SlideSeg.raw s :: rest, idx =>
    let r := replaceRuns tm rest idx
    (SlideSeg.raw s :: r.1, r.2)
  | SlideSeg.run t :: rest, idx =>
    if trimNonempty t then
      let translated :=
        match lookupTM tm (decRepr idx) with
        | some v => if v = [] then t else v
        | none => t
      let r := replaceRuns tm rest (idx + 1)
      (SlideSeg.run (cleanText translated) :: r.1, r.2)
    else
      let r := replaceRuns tm rest idx
      (SlideSeg.run t :: r.1, r.2)

/-- The reassembly pass (step 3 of `handlePptxTranslation`): replays the
same traversal with `currentTextIdx` carried across slide parts; non-slide
parts are left untouched. -/
def reassembleParts (tm : TMap) : List PptxPart → Nat → List PptxPart
  | [], _ => []
  | p :: rest, idx =>
    if isSlideName p.name then
      let r := replaceRuns tm p.segs idx
      { name := p.name, segs := r.1 } :: reassembleParts tm rest r.2
    else
      p :: reassembleParts tm rest idx

/-- Number of extraction units (trim-nonempty runs) in a segment list. -/
def countUnits (segs : List SlideSeg) : Nat :=
  (extractRunTexts segs).length

/-- The chunking loop `for (let i = 0; i < allText.length; i += chunkSize)`,
paired with each chunk's starting index; fuel-driven so that it reduces
definitionally (the loop runs at most `length` times). -/
def chunkLoop (cs : Nat) : Nat → Nat → List (List Nat) → List (Nat × List (List Nat))
  | 0, _, _ => []
  | _, _, [] => []
  | fuel + 1, i, l => (i, l.take cs) :: chunkLoop cs fuel (i + cs) (l.drop cs)

/-- The batches of `handlePptxTranslation`, with `chunkSize = 50`. -/
def chunksWithStart (l : List (List Nat)) : List (Nat × List (List Nat)) :=
  chunkLoop 50 l.length 0 l

/-- The shape of the chunking loop: each chunk's starting index and size,
as a function of the input length alone. -/
def chunkShape (cs : Nat) : Nat → Nat → Nat → List (Nat × Nat)
  | 0, _, _ => []
  | _, _, 0 => []
  | fuel + 1, i, n + 1 =>
    (i, min cs (n + 1)) :: chunkShape cs fuel (i + cs) (n + 1 - cs)

/-- The batch count `Math.ceil(allText.length / chunkSize)` with `chunkSize = 50`. -/
def totalChunksFor (n : Nat) : Nat :=
  (n + 49) / 50

/-- Rounding as `Math.round`: round half toward positive infinity. -/
def mathRound (q : ℚ) : ℤ :=
  ⌊q + 1 / 2⌋

/-- The reported percentage `Math.round((currentChunkIdx / totalChunks) * 100)`. -/
def progressPct (k t : Nat) : ℤ :=
  mathRound ((k : ℚ) / (t : ℚ) * 100)

/-- The sequence of progress percentages written to the job tracker, one
per batch, in batch order; `currentChunkIdx = Math.floor(i / chunkSize) + 1`. -/
def progressSeq (l : List (List Nat)) : List ℤ :=
  (chunksWithStart l).map fun sc => progressPct (sc.1 / 50 + 1) (totalChunksFor l.length)

/-- One line `"[<id>]: <text>"` of a batch prompt. -/
def promptLine (k : Nat) (t : List Nat) : List Nat :=
  91 :: (decRepr k ++ 93 :: 58 :: 32 :: t)

/-- The numbered lines of one batch prompt,
`chunk.map((text, idx) => "[" + (i + idx) + "]: " + text)`. -/
def promptLines : Nat → List (List Nat) → List (List Nat)
  | _, [] => []
  | k, t :: ts => promptLine k t :: promptLines (k + 1) ts

/-- One batch prompt: the numbered lines joined with `'\n'`. -/
def chunkPrompt (start : Nat) (chunk : List (List Nat)) : List Nat :=
  joinSep 10 (promptLines start chunk)

/-- The translation map built by running every batch against a pass-through
oracle (one that returns the prompt text unchanged). -/
def passthroughTranslations (ts : List (List Nat)) : TMap :=
  (chunksWithStart ts).foldl (fun m sc => applyResponse m (chunkPrompt sc.1 sc.2)) emptyTM

/-- The whole PPTX round trip under a pass-through oracle: extraction,
batching, response parsing, reassembly. -/
def pptxPassthroughReassembly (ps : List PptxPart) : List PptxPart :=
  reassembleParts (passthroughTranslations (extractParts ps)) ps 0

/-- What the round-trip claim says a matched segment must become: a
trim-nonempty run carries the `cleanText` of its original text, everything
else is unchanged. -/
def sanitizeSeg (s : SlideSeg) : SlideSeg :=
  match s with
  | SlideSeg.raw r => SlideSeg.raw r
  | SlideSeg.run t =>
    if trimNonempty t then SlideSeg.run (cleanText t) else SlideSeg.run t

/-- The archive the round-trip claim says reassembly must produce. -/
def expectedSanitized (ps : List PptxPart) : List PptxPart :=
  ps.map fun p =>
    if isSlideName p.name then { name := p.name, segs := p.segs.map sanitizeSeg } else p

/-- A run text that survives the prompt and response format unchanged: it
does not begin with whitespace (which `\s*` would strip) and contains no
line terminator (which line splitting and `.` would cut). -/
def goodText (t : List Nat) : Bool :=
  (match t with
   | [] => true
   | c :: _ => !jsSpace c) && t.all fun c => !isLineTerm c

/-- Sequential overwriting of the entries for ids `k, k+1, ...` with the
given texts (what processing one well-formed batch response amounts to). -/
def applyLines : TMap → Nat → List (List Nat) → TMap
  | m, _, [] => m
  | m, k, t :: ts => applyLines (updateTM m (decRepr k) t) (k + 1) ts

/-- A text chunk drawn onto a PDF page: page index, baseline `y`, text. -/
structure DrawEv where
  page : Nat
  y : ℚ
  text : List Nat
deriving DecidableEq

/-- The mutable layout state of `handlePdfTranslation` step 3: current page,
vertical cursor, and the drawing calls issued so far. -/
structure LayoutSt where
  page : Nat
  y : ℚ
  evs : List DrawEv
deriving DecidableEq

/-- One flush: draw the sanitized chunk at the cursor baseline, then advance the cursor downward by `adv` (`y -= adv`). -/
def drawFlush (st : LayoutSt) (chunk : List Nat) (adv : ℚ) : LayoutSt :=
  { page := st.page, y := st.y - adv,
    evs := st.evs ++ [{ page := st.page, y := st.y, text := cleanText chunk }] }

/-- The page-break check `y < margin + fontSize`: allocate a fresh page and reset the cursor to `height - margin`,
with `margin = 50`, `fontSize = 12`. -/
def pageBreakIfNeeded (hgt : ℚ) (st : LayoutSt) : LayoutSt :=
  if st.y < 50 + 12 then { page := st.page + 1, y := hgt - 50, evs := st.evs } else st

/-- The `testLine` of one wrap step: `currentLine ? currentLine + " " + word : word`. -/
def testLineOf (cur w : List Nat) : List Nat :=
  if cur.isEmpty then w else cur ++ 32 :: w

/-- One width measurement with the `catch` fallback: `measure` is the width
oracle `font.widthOfTextAtSize(s, fontSize)`, `none` standing for a thrown
exception; the `catch` arm measures `currentLine || word`, and if that
fails as well the exception escapes the whole handler. -/
def effWidth (measure : List Nat → Option ℚ) (cur w : List Nat) : Option ℚ :=
  match measure (testLineOf cur w) with
  | some tw => some tw
  | none => measure (if cur.isEmpty then w else cur)

/-- The inner word loop of the greedy wrap. -/
def wordsLoop (measure : List Nat → Option ℚ) (maxW hgt : ℚ) :
    List (List Nat) → LayoutSt → List Nat → Option (LayoutSt × List Nat)
  | [], st, cur => some (st, cur)
  | w :: ws, st, cur =>
    match effWidth measure cur w with
    | none => none
    | some tw =>
      if maxW < tw then
        wordsLoop measure maxW hgt ws
          (pageBreakIfNeeded hgt (drawFlush st cur (12 + 5))) w
      else
        wordsLoop measure maxW hgt ws st (testLineOf cur w)

/-- The outer loop over `'\n'`-separated source lines: page-break check at
the top, the word loop, then the final flush with the larger paragraph
advance `fontSize + 10`. -/
def lineLoop (measure : List Nat → Option ℚ) (maxW hgt : ℚ) :
    List (List Nat) → LayoutSt → Option LayoutSt
  | [], st => some st
  | line :: rest, st =>
    match wordsLoop measure maxW hgt (splitSep 32 line) (pageBreakIfNeeded hgt st) [] with
    | none => none
    | some st2 =>
      lineLoop measure maxW hgt rest
        (if st2.2.isEmpty then st2.1 else drawFlush st2.1 st2.2 (12 + 10))

/-- The PDF layout of a translated text: `margin = 50`, `fontSize = 12`,
`maxWidth = width - margin * 2`, initial cursor `height - margin` on page 0. -/
def layoutText (measure : List Nat → Option ℚ) (wid hgt : ℚ) (text : List Nat) :
    Option (List DrawEv) :=
  match lineLoop measure (wid - 50 * 2) hgt (splitSep 10 text) { page := 0, y := hgt - 50, evs := [] } with
  | none => none
  | some st => some st.evs

/-- A width oracle that always throws. -/
def noMeasure : List Nat → Option ℚ := fun _ => none

/-- A width oracle that measures every string as zero wide. -/
def zeroMeasure : List Nat → Option ℚ := fun _ => some 0

/-- The sequence of space-separated nonempty words drawn so far, one list
entry per word, in drawing order. -/
def drawnWords (evs : List DrawEv) : List (List Nat) :=
  ((evs.map DrawEv.text).map (splitSep 32)).flatten.filter fun x => !x.isEmpty

/-- The nonempty space-separated words of a string. -/
def lineWords (x : List Nat) : List (List Nat) :=
  (splitSep 32 x).filter fun x => !x.isEmpty

/-- The pairwise relation the cursor invariant asserts between consecutive
draws: either the same page with a strictly lower baseline, or the next
page with the baseline reset to the top margin `height - margin`. -/
def evStep (hgt : ℚ) (e1 e2 : DrawEv) : Prop :=
  (e2.page = e1.page ∧ e2.y < e1.y) ∨ (e2.page = e1.page + 1 ∧ e2.y = hgt - 50)

instance (hgt : ℚ) : DecidableRel (evStep hgt) := fun e1 e2 => by
  unfold evStep
  infer_instance

/-- A relation holding between every two consecutive elements of a list. -/
def allSteps {α : Type} (P : α → α → Prop) : List α → Prop
  | [] => True
  | [_] => True
  | a :: b :: t => P a b ∧ allSteps P (b :: t)

def allStepsDec {α : Type} (P : α → α → Prop) [DecidableRel P] :
    (l : List α) → Decidable (allSteps P l)
  | [] => isTrue trivial
  | [_] => isTrue trivial
  | a :: b :: t =>
    match allStepsDec P (b :: t) with
    | isTrue h => if h2 : P a b then isTrue ⟨h2, h⟩ else isFalse fun hc => h2 hc.1
    | isFalse h => isFalse fun hc => h hc.2

instance {α : Type} (P : α → α → Prop) [DecidableRel P] (l : List α) :
    Decidable (allSteps P l) := allStepsDec P l

/-- The internal invariant of the layout state: the draw events so far obey
the step relation and the margins, the head draw of the document sits at the
top margin, and the cursor either trails the latest draw by at least one
line advance on the same page or has just been reset on a fresh page. -/
def stInv (hgt : ℚ) (st : LayoutSt) : Prop :=
  allSteps (evStep hgt) st.evs ∧
  (∀ e ∈ st.evs, 62 ≤ e.y ∧ e.y ≤ hgt - 50) ∧
  (∀ e, st.evs.head? = some e → e.y = hgt - 50) ∧
  st.y ≤ hgt - 50 ∧
  (match st.evs.getLast? with
   | none => st.page = 0 ∧ st.y = hgt - 50
   | some l => (st.page = l.page ∧ st.y ≤ l.y - 17) ∨
               (st.page = l.page + 1 ∧ st.y = hgt - 50))

/-! ## Properties of the substitution table and sanitizer -/

theorem charSub_none_of_le (c : Nat) (h : c ≤ 127) : charSub c = none := by
  have hkeys : ∀ p ∈ charMapPairs, 127 < p.1 := by decide
  unfold charSub
  rw [List.find?_eq_none.mpr]
  · rfl
  · intro p hp
    have := hkeys p hp
    simp only [beq_iff_eq]
    omega

theorem charSub_spec (c : Nat) (s : List Nat) (h : charSub c = some s) :
    s ≠ [] ∧ ∀ d ∈ s, d ∈ subImageChars ∧ d ≤ 127 ∧ d ≠ 32 ∧ charSub d = none := by
  have hall : ∀ p ∈ charMapPairs,
      p.2 ≠ [] ∧ ∀ d ∈ p.2, d ∈ subImageChars ∧ d ≤ 127 ∧ d ≠ 32 ∧ charSub d = none := by
    decide
  unfold charSub at h
  cases hf : charMapPairs.find? fun p => p.1 == c with
  | none => rw [hf] at h; exact Option.noConfusion h
  | some p =>
    rw [hf] at h
    have hs : p.2 = s := by
      simpa using h
    have hp := List.mem_of_find?_eq_some hf
    rw [← hs]
    exact hall p hp

theorem cleanChar_ne_nil (c : Nat) : cleanChar c ≠ [] := by
  unfold cleanChar
  cases hsub : charSub c with
  | some s => exact (charSub_spec c s hsub).1
  | none => split_ifs <;> simp

theorem cleanChar_le (c d : Nat) (h : d ∈ cleanChar c) : d ≤ 127 := by
  unfold cleanChar at h
  cases hsub : charSub c with
  | some s =>
    rw [hsub] at h
    exact ((charSub_spec c s hsub).2 d h).2.1
  | none =>
    rw [hsub] at h
    split_ifs at h with hgt
    · simp at h
      omega
    · simp at h
      omega

theorem cleanChar_fixed (c d : Nat) (h : d ∈ cleanChar c) : cleanChar d = [d] := by
  have hle : d ≤ 127 := cleanChar_le c d h
  have hnone : charSub d = none := charSub_none_of_le d hle
  unfold cleanChar
  rw [hnone]
  split_ifs with hgt
  · omega
  · rfl

theorem cleanChar_not32 (c : Nat) (hc : c ≠ 32) : 32 ∉ cleanChar c := by
  unfold cleanChar
  cases hsub : charSub c with
  | some s =>
    intro hmem
    exact ((charSub_spec c s hsub).2 32 hmem).2.2.1 rfl
  | none =>
    split_ifs with hgt
    · simp
    · simp
      omega

theorem cleanText_nil : cleanText [] = [] := rfl

theorem cleanText_cons (c : Nat) (t : List Nat) :
    cleanText (c :: t) = cleanChar c ++ cleanText t := by
  simp [cleanText]

theorem cleanText_append (a b : List Nat) :
    cleanText (a ++ b) = cleanText a ++ cleanText b := by
  simp [cleanText]

theorem cleanText_ne_nil (t : List Nat) (h : t ≠ []) : cleanText t ≠ [] := by
  cases t with
  | nil => exact absurd rfl h
  | cons c t =>
    rw [cleanText_cons]
    intro hc
    exact cleanChar_ne_nil c (List.append_eq_nil.mp hc).1

theorem cleanText_mem (t : List Nat) (d : Nat) (h : d ∈ cleanText t) :
    ∃ c ∈ t, d ∈ cleanChar c := by
  simp only [cleanText, List.mem_flatten, List.mem_map] at h
  obtain ⟨l, ⟨c, hc, rfl⟩, hd⟩ := h
  exact ⟨c, hc, hd⟩

theorem cleanText_of_fixed (l : List Nat) (h : ∀ d ∈ l, cleanChar d = [d]) :
    cleanText l = l := by
  induction l with
  | nil => rfl
  | cons c t ih =>
    rw [cleanText_cons, h c (List.mem_cons_self c t), List.singleton_append]
    rw [ih fun d hd => h d (List.mem_cons_of_mem c hd)]


/-- C8. The sanitizer is idempotent: `cleanText (cleanText x) = cleanText x`
for every string `x`.  Every unit the sanitizer emits is a fixed point of
the per-unit map (substitution values and the placeholder lie in the 7-bit
range and are not themselves table keys). -/
theorem cleanText_idempotent (t : List Nat) : cleanText (cleanText t) = cleanText t := by
  induction t with
  | nil => rfl
  | cons c t ih =>
    rw [cleanText_cons, cleanText_append, ih,
      cleanText_of_fixed (cleanChar c) fun d hd => cleanChar_fixed c d hd]

/-- C3, counterexample to the claim as stated: `cleanText` passes the BEL
control character (code 7, not printable) through unchanged, so an output
unit need not be a substitution image, printable 7-bit ASCII, or the
placeholder. -/
theorem cleanText_printable_fails :
    7 ∈ cleanText [7] ∧ 7 ∉ subImageChars ∧ ¬(32 ≤ 7 ∧ 7 ≤ 126) ∧ 7 ≠ 63 := by
  decide

/-- C3, amended: every unit of the sanitizer's output is a substitution
image, or lies in the 7-bit range (code ≤ 127, printable or not), or is the
placeholder. -/
theorem cleanText_seven_bit (x : List Nat) (d : Nat) (h : d ∈ cleanText x) :
    d ∈ subImageChars ∨ d ≤ 127 ∨ d = 63 := by
  obtain ⟨c, _, hd⟩ := cleanText_mem x d h
  exact Or.inr (Or.inl (cleanChar_le c d hd))

theorem cleanText_seven_bit_witness :
    105 ∈ cleanText [305] ∧ (105 ∈ subImageChars ∨ 105 ≤ 127 ∨ 105 = 63) :=
  ⟨by decide, cleanText_seven_bit [305] 105 (by decide)⟩

/-- C4, counterexample to the claim as stated: the filename "report.docx"
names neither a PDF nor a PPTX, yet the dispatch sends it to the PDF
handler; no unsupported-format rejection exists. -/
theorem routeFormat_docx_pdf_mode :
    routeFormat [114, 101, 112, 111, 114, 116, 46, 100, 111, 99, 120] = DocFormat.pdf ∧
    pptxSuf.isSuffixOf (lowerName [114, 101, 112, 111, 114, 116, 46, 100, 111, 99, 120]) = false ∧
    pdfSuf.isSuffixOf (lowerName [114, 101, 112, 111, 114, 116, 46, 100, 111, 99, 120]) = false := by
  decide

/-- C4, amended: the dispatch is total over the two modes — a filename
ending in ".pptx" (case-insensitively) is processed in PPTX mode and every
other filename is processed in PDF mode; no filename fails with an
unsupported-format error. -/
theorem routeFormat_total (name : List Nat) :
    (routeFormat name = DocFormat.pptx ∨ routeFormat name = DocFormat.pdf) ∧
    (routeFormat name = DocFormat.pptx ↔ pptxSuf.isSuffixOf (lowerName name) = true) := by
  unfold routeFormat
  split_ifs with h <;> simp [h]

/-! ## Response parsing: duplicate identifiers -/

theorem getLast?_cons_or {α : Type} (a : α) (xs : List α) :
    (a :: xs).getLast? = xs.getLast?.or (some a) := by
  induction xs generalizing a with
  | nil => rfl
  | cons b t ih =>
    rw [List.getLast?_cons_cons, ih b]
    cases t.getLast? <;> simp [Option.or]

theorem foldl_applyRespLine_lookup (lines : List (List Nat)) (m : TMap) (k : List Nat) :
    lookupTM (lines.foldl applyRespLine m) k = (lastValueFor lines k).or (lookupTM m k) := by
  induction lines generalizing m with
  | nil => simp [lastValueFor, lookupTM]
  | cons l ls ih =>
    rw [List.foldl_cons, ih]
    unfold lastValueFor applyRespLine
    cases hp : parseLine l with
    | none => simp [lastValueFor, hp]
    | some kv =>
      simp only [List.filterMap_cons, hp]
      by_cases hk : (kv.1 == k) = true
      · simp only [List.filter_cons, hk, if_true]
        rw [getLast?_cons_or]
        have hkk : k = kv.1 := (beq_iff_eq.mp hk).symm
        have hupd : lookupTM (updateTM m kv.1 kv.2) k = some kv.2 := by
          simp [lookupTM, updateTM, hkk]
        rw [hupd]
        cases ((ls.filterMap parseLine).filter fun p => p.1 == k).getLast? with
        | none => simp [lastValueFor, Option.or]
        | some q => simp [lastValueFor, Option.or]
      · have hk2 : (kv.1 == k) = false := by
          simpa using hk
        simp only [List.filter_cons, hk2, if_false]
        have hkk : ¬ k = kv.1 := fun he => hk (beq_iff_eq.mpr he.symm)
        have hupd : lookupTM (updateTM m kv.1 kv.2) k = lookupTM m k := by
          simp [lookupTM, updateTM, hkk]
        rw [hupd]
        simp

/-- C10, counterexample to the claim as stated: in the response
"[7]: b" ++ newline ++ "[07]: a", both lines carry the same integer id 7,
and the later line says "a"; yet the entry the reassembly pass reads for
id 7 (the canonical key "7") holds "b", because JavaScript object keys are
the raw digit strings and "[07]" populated the distinct key "07". -/
theorem dupIds_integer_lastwins_fails :
    lookupTM (applyResponse emptyTM
        ([91, 55, 93, 58, 32, 98] ++ 10 :: [91, 48, 55, 93, 58, 32, 97])) (decRepr 7) =
      some [98] ∧
    parseLine [91, 55, 93, 58, 32, 98] = some ([55], [98]) ∧
    parseLine [91, 48, 55, 93, 58, 32, 97] = some ([48, 55], [97]) ∧
    natOfDigits [55] = 7 ∧ natOfDigits [48, 55] = 7 ∧ ([98] : List Nat) ≠ [97] := by
  decide

/-- C10, amended: duplicate handling is a plain overwrite keyed by the raw
bracketed digit string — after a response is processed, the entry at any
key equals the text of the last response line parsing to that exact digit
string, and falls back to the prior map if no line parses to it.  Lines
whose digit strings denote the same integer but differ textually (leading
zeros) occupy distinct keys. -/
theorem applyResponse_last_wins (tm : TMap) (resp : List Nat) (k : List Nat) :
    lookupTM (applyResponse tm resp) k =
      (lastValueFor (splitSep 10 resp) k).or (lookupTM tm k) :=
  foldl_applyRespLine_lookup (splitSep 10 resp) tm k

/-! ## Batching and progress reporting -/

theorem chunkLoop_shape (cs fuel : Nat) :
    ∀ (i : Nat) (l : List (List Nat)),
    (chunkLoop cs fuel i l).map (fun p => (p.1, p.2.length)) = chunkShape cs fuel i l.length := by
  induction fuel with
  | zero => intro i l; cases l <;> rfl
  | succ f ih =>
    intro i l
    cases l with
    | nil => rfl
    | cons a t =>
      simp only [chunkLoop, chunkShape, List.map_cons, List.length_cons, List.length_take,
        List.length_drop, ih]

theorem chunkShape_120 : chunkShape 50 120 0 120 = [(0, 50), (50, 50), (100, 20)] := by
  decide

theorem progressPct_one_third : progressPct 1 3 = 33 := by
  unfold progressPct mathRound
  rw [Int.floor_eq_iff]
  norm_num

theorem progressPct_two_thirds : progressPct 2 3 = 67 := by
  unfold progressPct mathRound
  rw [Int.floor_eq_iff]
  norm_num

theorem progressPct_three_thirds : progressPct 3 3 = 100 := by
  unfold progressPct mathRound
  rw [Int.floor_eq_iff]
  norm_num

/-- C7. A 120-unit extraction is batched, in order, into exactly three
batches of sizes 50, 50, 20, and the progress percentages recorded after
the batches are 33, 67, 100 — strictly increasing, each equal to
`Math.round((batchNumber / totalBatches) * 100)` with `totalBatches = 3`. -/
theorem batching_120_progress (l : List (List Nat)) (h : l.length = 120) :
    ((chunksWithStart l).map fun sc => sc.2.length) = [50, 50, 20] ∧
    progressSeq l = [33, 67, 100] ∧
    allSteps (fun a b : ℤ => a < b) (progressSeq l) ∧
    progressSeq l =
      [progressPct 1 (totalChunksFor 120), progressPct 2 (totalChunksFor 120),
       progressPct 3 (totalChunksFor 120)] := by
  have hs : (chunkLoop 50 120 0 l).map (fun p => (p.1, p.2.length)) =
      [(0, 50), (50, 50), (100, 20)] := by
    rw [chunkLoop_shape, h, chunkShape_120]
  have hlen : ((chunksWithStart l).map fun sc => sc.2.length) = [50, 50, 20] := by
    unfold chunksWithStart
    rw [h]
    have := congrArg (List.map fun q : Nat × Nat => q.2) hs
    rw [List.map_map] at this
    exact this
  have hseq : progressSeq l = [progressPct 1 3, progressPct 2 3, progressPct 3 3] := by
    unfold progressSeq chunksWithStart
    rw [h]
    have hfac : (chunkLoop 50 120 0 l).map
        (fun sc => progressPct (sc.1 / 50 + 1) (totalChunksFor 120)) =
        ((chunkLoop 50 120 0 l).map (fun p => (p.1, p.2.length))).map
          (fun q => progressPct (q.1 / 50 + 1) (totalChunksFor 120)) := by
      rw [List.map_map]
      rfl
    rw [hfac, hs]
    norm_num [totalChunksFor]
  refine ⟨hlen, ?_, ?_, ?_⟩
  · rw [hseq, progressPct_one_third, progressPct_two_thirds, progressPct_three_thirds]
  · rw [hseq, progressPct_one_third, progressPct_two_thirds, progressPct_three_thirds]
    simp only [allSteps]
    norm_num
  · rw [hseq]
    norm_num [totalChunksFor]

theorem batching_120_progress_witness :
    (List.replicate 120 ([] : List Nat)).length = 120 ∧
    (((chunksWithStart (List.replicate 120 ([] : List Nat))).map fun sc => sc.2.length) = [50, 50, 20] ∧
     progressSeq (List.replicate 120 ([] : List Nat)) = [33, 67, 100] ∧
     allSteps (fun a b : ℤ => a < b) (progressSeq (List.replicate 120 ([] : List Nat))) ∧
     progressSeq (List.replicate 120 ([] : List Nat)) =
       [progressPct 1 (totalChunksFor 120), progressPct 2 (totalChunksFor 120),
        progressPct 3 (totalChunksFor 120)]) :=
  ⟨by decide, batching_120_progress (List.replicate 120 ([] : List Nat)) (by decide)⟩

/-! ## PPTX reassembly: fallback and frame conditions -/

theorem trimNonempty_ne_nil (t : List Nat) (h : trimNonempty t = true) : t ≠ [] := by
  intro he
  rw [he] at h
  exact Bool.noConfusion h

/-- C2. During reassembly, a trim-nonempty run whose assigned identifier is
absent from the translation map is rewritten with the sanitized original
text of that run, and every trim-nonempty run is rewritten to a run with
nonempty text (never an empty string).  The identifier assigned to the run
at position `p` is the running counter `idx` plus the number of units
before `p`, exactly as `currentTextIdx++` assigns it. -/
theorem missing_id_fallback (tm : TMap) (segs : List SlideSeg) (idx p : Nat) (t : List Nat)
    (hp : segs.get? p = some (SlideSeg.run t)) (ht : trimNonempty t = true) :
    (lookupTM tm (decRepr (idx + countUnits (segs.take p))) = none →
      (replaceRuns tm segs idx).1.get? p = some (SlideSeg.run (cleanText t))) ∧
    ∃ u, (replaceRuns tm segs idx).1.get? p = some (SlideSeg.run u) ∧ u ≠ [] := by
  induction segs generalizing idx p with
  | nil => exact absurd hp (by simp)
  | cons s rest ih =>
    cases s with
    | raw s0 =>
      cases p with
      | zero => simp at hp
      | succ p =>
        have hp2 : rest.get? p = some (SlideSeg.run t) := hp
        have hcount : countUnits ((SlideSeg.raw s0 :: rest).take (p + 1)) =
            countUnits (rest.take p) := by
          simp [countUnits, extractRunTexts]
        rw [hcount]
        have hrec := ih idx p hp2
        simpa [replaceRuns] using hrec
    | run t0 =>
      by_cases h0 : trimNonempty t0 = true
      · cases p with
        | zero =>
          have ht0 : t = t0 := by
            simp at hp
            exact hp.symm
          subst ht0
          have hcount : countUnits ((SlideSeg.run t :: rest).take 0) = 0 := by
            simp [countUnits, extractRunTexts]
          rw [hcount]
          constructor
          · intro hnone
            simp [replaceRuns, h0, lookupTM] at hnone ⊢
            rw [hnone]
          · refine ⟨cleanText (match lookupTM tm (decRepr idx) with
              | some v => if v = [] then t else v
              | none => t), ?_, ?_⟩
            · simp [replaceRuns, h0]
            · apply cleanText_ne_nil
              cases hv : lookupTM tm (decRepr idx) with
              | none => simpa using trimNonempty_ne_nil t ht
              | some v =>
                by_cases hve : v = []
                · simpa [hve] using trimNonempty_ne_nil t ht
                · simp [hve]
        | succ p =>
          have hp2 : rest.get? p = some (SlideSeg.run t) := hp
          have hcount : countUnits ((SlideSeg.run t0 :: rest).take (p + 1)) =
              countUnits (rest.take p) + 1 := by
            simp [countUnits, extractRunTexts, h0]
          rw [hcount]
          have harith : idx + (countUnits (rest.take p) + 1) =
              (idx + 1) + countUnits (rest.take p) := by omega
          rw [harith]
          have hrec := ih (idx + 1) p hp2
          simpa [replaceRuns, h0] using hrec
      · cases p with
        | zero =>
          have ht0 : t = t0 := by
            simp at hp
            exact hp.symm
          subst ht0
          exact absurd ht h0
        | succ p =>
          have hp2 : rest.get? p = some (SlideSeg.run t) := hp
          have hcount : countUnits ((SlideSeg.run t0 :: rest).take (p + 1)) =
              countUnits (rest.take p) := by
            simp [countUnits, extractRunTexts, h0]
          rw [hcount]
          have hrec := ih idx p hp2
          simpa [replaceRuns, h0] using hrec

theorem missing_id_fallback_witness :
    ([SlideSeg.run [104, 105]].get? 0 = some (SlideSeg.run [104, 105])) ∧
    trimNonempty [104, 105] = true ∧
    ((lookupTM emptyTM (decRepr (0 + countUnits ([SlideSeg.run [104, 105]].take 0))) = none →
      (replaceRuns emptyTM [SlideSeg.run [104, 105]] 0).1.get? 0 =
        some (SlideSeg.run (cleanText [104, 105]))) ∧
     ∃ u, (replaceRuns emptyTM [SlideSeg.run [104, 105]] 0).1.get? 0 =
        some (SlideSeg.run u) ∧ u ≠ []) :=
  ⟨by decide, by decide,
   missing_id_fallback emptyTM [SlideSeg.run [104, 105]] 0 0 [104, 105] (by decide) (by decide)⟩

theorem replaceRuns_frame (tm : TMap) (segs : List SlideSeg) (idx : Nat) :
    (replaceRuns tm segs idx).1.length = segs.length ∧
    (∀ q s, segs.get? q = some (SlideSeg.raw s) →
      (replaceRuns tm segs idx).1.get? q = some (SlideSeg.raw s)) ∧
    (∀ q t, segs.get? q = some (SlideSeg.run t) → trimNonempty t = false →
      (replaceRuns tm segs idx).1.get? q = some (SlideSeg.run t)) := by
  induction segs generalizing idx with
  | nil => exact ⟨rfl, by simp, by simp⟩
  | cons s rest ih =>
    cases s with
    | raw s0 =>
      obtain ⟨ihl, ihraw, ihws⟩ := ih idx
      refine ⟨by simpa [replaceRuns] using ihl, ?_, ?_⟩
      · intro q s hq
        cases q with
        | zero =>
          simp at hq
          simp [replaceRuns, hq]
        | succ q => simpa [replaceRuns] using ihraw q s hq
      · intro q t hq hws
        cases q with
        | zero => simp at hq
        | succ q => simpa [replaceRuns] using ihws q t hq hws
    | run t0 =>
      by_cases h0 : trimNonempty t0 = true
      · obtain ⟨ihl, ihraw, ihws⟩ := ih (idx + 1)
        refine ⟨by simpa [replaceRuns, h0] using ihl, ?_, ?_⟩
        · intro q s hq
          cases q with
          | zero => simp at hq
          | succ q => simpa [replaceRuns, h0] using ihraw q s hq
        · intro q t hq hws
          cases q with
          | zero =>
            simp at hq
            rw [hq] at h0
            rw [hws] at h0
            exact Bool.noConfusion h0
          | succ q => simpa [replaceRuns, h0] using ihws q t hq hws
      · obtain ⟨ihl, ihraw, ihws⟩ := ih idx
        refine ⟨by simpa [replaceRuns, h0] using ihl, ?_, ?_⟩
        · intro q s hq
          cases q with
          | zero => simp at hq
          | succ q => simpa [replaceRuns, h0] using ihraw q s hq
        · intro q t hq hws
          cases q with
          | zero =>
            simp at hq
            subst hq
            simp [replaceRuns, hws]
          | succ q => simpa [replaceRuns, h0] using ihws q t hq hws

/-- C9. Reassembly touches only the matched trim-nonempty runs of slide
parts: the output archive has the same parts in the same order, every part
whose name does not match the slide convention is returned unchanged, and
within a slide part every raw segment (text outside a match) and every
whitespace-only run is returned unchanged at its position. -/
theorem reassembly_frame (tm : TMap) (ps : List PptxPart) (idx : Nat) :
    (reassembleParts tm ps idx).length = ps.length ∧
    (∀ j pt, ps.get? j = some pt → isSlideName pt.name = false →
      (reassembleParts tm ps idx).get? j = some pt) ∧
    (∀ j pt, ps.get? j = some pt → ∃ pt2,
      (reassembleParts tm ps idx).get? j = some pt2 ∧ pt2.name = pt.name ∧
      pt2.segs.length = pt.segs.length ∧
      (∀ q s, pt.segs.get? q = some (SlideSeg.raw s) →
        pt2.segs.get? q = some (SlideSeg.raw s)) ∧
      (∀ q t, pt.segs.get? q = some (SlideSeg.run t) → trimNonempty t = false →
        pt2.segs.get? q = some (SlideSeg.run t))) := by
  induction ps generalizing idx with
  | nil => exact ⟨rfl, by simp, by simp⟩
  | cons p rest ih =>
    by_cases hslide : isSlideName p.name = true
    · obtain ⟨ihl, ihother, ihall⟩ := ih (replaceRuns tm p.segs idx).2
      refine ⟨by simpa [reassembleParts, hslide] using ihl, ?_, ?_⟩
      · intro j pt hj hother
        cases j with
        | zero =>
          simp at hj
          rw [← hj] at hother
          rw [hslide] at hother
          exact Bool.noConfusion hother
        | succ j => simpa [reassembleParts, hslide] using ihother j pt hj hother
      · intro j pt hj
        cases j with
        | zero =>
          simp at hj
          obtain ⟨hl, hraw, hws⟩ := replaceRuns_frame tm p.segs idx
          refine ⟨{ name := p.name, segs := (replaceRuns tm p.segs idx).1 }, ?_, ?_, ?_, ?_, ?_⟩
          · simp [reassembleParts, hslide]
          · rw [← hj]
          · rw [← hj]
            exact hl
          · intro q s hq
            rw [← hj] at hq
            exact hraw q s hq
          · intro q t hq hwq
            rw [← hj] at hq
            exact hws q t hq hwq
        | succ j =>
          have hrec := ihall j pt hj
          simpa [reassembleParts, hslide] using hrec
    · obtain ⟨ihl, ihother, ihall⟩ := ih idx
      have hslide2 : isSlideName p.name = false := by
        simpa using hslide
      refine ⟨by simpa [reassembleParts, hslide] using ihl, ?_, ?_⟩
      · intro j pt hj hother
        cases j with
        | zero =>
          simp at hj
          subst hj
          simp [reassembleParts, hslide2]
        | succ j => simpa [reassembleParts, hslide] using ihother j pt hj hother
      · intro j pt hj
        cases j with
        | zero =>
          simp at hj
          subst hj
          refine ⟨p, ?_, rfl, rfl, by intro q s hq; exact hq, by intro q t hq hwq; exact hq⟩
          simp [reassembleParts, hslide2]
        | succ j =>
          have hrec := ihall j pt hj
          simpa [reassembleParts, hslide] using hrec

/-! ## Decimal representations -/

theorem decReprAux_stable (f : Nat) :
    ∀ (g n : Nat), n < f → n < g → decReprAux f n = decReprAux g n := by
  induction f with
  | zero => intro g n hf; omega
  | succ f ih =>
    intro g n hf hg
    cases g with
    | zero => omega
    | succ g =>
      simp only [decReprAux]
      by_cases h10 : n < 10
      · simp [h10]
      · simp only [h10, if_false]
        have hdiv : n / 10 < n := Nat.div_lt_self (by omega) (by omega)
        rw [ih g (n / 10) (by omega) (by omega)]

theorem decRepr_unfold (n : Nat) :
    decRepr n = if n < 10 then [48 + n] else decRepr (n / 10) ++ [48 + n % 10] := by
  have hstep : decRepr n = if n < 10 then [48 + n] else decReprAux n (n / 10) ++ [48 + n % 10] :=
    rfl
  rw [hstep]
  by_cases h10 : n < 10
  · simp [h10]
  · rw [if_neg h10, if_neg h10]
    have hdiv : n / 10 < n := Nat.div_lt_self (by omega) (by omega)
    rw [decReprAux_stable n (n / 10 + 1) (n / 10) (by omega) (by omega)]
    rfl

theorem decRepr_digits (n : Nat) : ∀ c ∈ decRepr n, isDigitCh c = true := by
  induction n using Nat.strong_induction_on with
  | _ n ih =>
    rw [decRepr_unfold]
    by_cases h10 : n < 10
    · simp only [h10, if_true]
      intro c hc
      simp only [List.mem_singleton] at hc
      subst hc
      simp only [isDigitCh, Bool.and_eq_true, decide_eq_true_eq]
      omega
    · simp only [h10, if_false]
      intro c hc
      rcases List.mem_append.mp hc with h | h
      · exact ih (n / 10) (Nat.div_lt_self (by omega) (by omega)) c h
      · simp only [List.mem_singleton] at h
        subst h
        simp only [isDigitCh, Bool.and_eq_true, decide_eq_true_eq]
        have := Nat.mod_lt n (show 0 < 10 by omega)
        omega

theorem decRepr_ne_nil (n : Nat) : decRepr n ≠ [] := by
  rw [decRepr_unfold]
  by_cases h10 : n < 10
  · simp [h10]
  · simp [h10]

theorem natOfDigits_append_digit (xs : List Nat) (d : Nat) :
    natOfDigits (xs ++ [d]) = 10 * natOfDigits xs + (d - 48) := by
  unfold natOfDigits
  rw [List.foldl_append]
  rfl

theorem natOfDigits_decRepr (n : Nat) : natOfDigits (decRepr n) = n := by
  induction n using Nat.strong_induction_on with
  | _ n ih =>
    rw [decRepr_unfold]
    by_cases h10 : n < 10
    · simp only [h10, if_true]
      show 10 * 0 + (48 + n - 48) = n
      omega
    · simp only [h10, if_false]
      rw [natOfDigits_append_digit, ih (n / 10) (Nat.div_lt_self (by omega) (by omega))]
      omega

theorem decRepr_inj (a b : Nat) (h : decRepr a = decRepr b) : a = b := by
  have := natOfDigits_decRepr a
  rw [h, natOfDigits_decRepr] at this
  omega

/-! ## takeWhile and dropWhile over concatenations -/

theorem takeWhile_append_stop (p : Nat → Bool) (a : List Nat) (b : Nat) (y : List Nat)
    (ha : ∀ c ∈ a, p c = true) (hb : p b = false) :
    (a ++ b :: y).takeWhile p = a := by
  induction a with
  | nil => simp [List.takeWhile, hb]
  | cons c a ih =>
    have hc : p c = true := ha c (by simp)
    rw [List.cons_append, List.takeWhile_cons_of_pos hc, ih fun d hd => ha d (by simp [hd])]

theorem dropWhile_append_stop (p : Nat → Bool) (a : List Nat) (b : Nat) (y : List Nat)
    (ha : ∀ c ∈ a, p c = true) (hb : p b = false) :
    (a ++ b :: y).dropWhile p = b :: y := by
  induction a with
  | nil => simp [List.dropWhile, hb]
  | cons c a ih =>
    have hc : p c = true := ha c (by simp)
    rw [List.cons_append, List.dropWhile_cons_of_pos hc]
    exact ih fun d hd => ha d (by simp [hd])

theorem takeWhile_all (p : Nat → Bool) (t : List Nat) (h : ∀ c ∈ t, p c = true) :
    t.takeWhile p = t := by
  induction t with
  | nil => rfl
  | cons c t ih =>
    have hc : p c = true := h c (by simp)
    rw [List.takeWhile_cons_of_pos hc, ih fun d hd => h d (by simp [hd])]

/-! ## Splitting and joining -/

theorem splitSep_ne_nil (sep : Nat) (x : List Nat) : splitSep sep x ≠ [] := by
  cases x with
  | nil => simp [splitSep]
  | cons c cs =>
    simp only [splitSep]
    cases splitSep sep cs with
    | nil => simp
    | cons w ws =>
      by_cases h : c = sep <;> simp [h]

theorem splitSep_cons_sep (sep : Nat) (y : List Nat) :
    splitSep sep (sep :: y) = [] :: splitSep sep y := by
  simp only [splitSep]
  cases hy : splitSep sep y with
  | nil => exact absurd hy (splitSep_ne_nil sep y)
  | cons w ws => simp

theorem splitSep_cons_other (sep c : Nat) (y : List Nat) (hc : c ≠ sep) :
    ∀ w ws, splitSep sep y = w :: ws → splitSep sep (c :: y) = (c :: w) :: ws := by
  intro w ws hy
  simp only [splitSep, hy, hc, if_false]

theorem splitSep_not_mem (sep : Nat) (x : List Nat) (h : sep ∉ x) :
    splitSep sep x = [x] := by
  induction x with
  | nil => rfl
  | cons c cs ih =>
    have hc : c ≠ sep := fun he => h (by simp [he])
    have hcs : sep ∉ cs := fun he => h (by simp [he])
    exact splitSep_cons_other sep c cs hc cs [] (ih hcs)

theorem splitSep_sepfree_append (sep : Nat) (a rest : List Nat) (ha : ∀ d ∈ a, d ≠ sep) :
    ∀ w ws, splitSep sep rest = w :: ws → splitSep sep (a ++ rest) = (a ++ w) :: ws := by
  induction a with
  | nil => intro w ws h; simpa using h
  | cons c a ih =>
    intro w ws h
    have hc : c ≠ sep := ha c (by simp)
    have := ih (fun d hd => ha d (by simp [hd])) w ws h
    rw [List.cons_append]
    rw [splitSep_cons_other sep c (a ++ rest) hc (a ++ w) ws this]
    simp

theorem splitSep_joinSep (sep : Nat) (ls : List (List Nat)) (hne : ls ≠ [])
    (hfree : ∀ l ∈ ls, sep ∉ l) : splitSep sep (joinSep sep ls) = ls := by
  induction ls with
  | nil => exact absurd rfl hne
  | cons l ls ih =>
    cases ls with
    | nil =>
      show splitSep sep l = [l]
      exact splitSep_not_mem sep l (hfree l (by simp))
    | cons l2 ls2 =>
      have hjoin : joinSep sep (l :: l2 :: ls2) = l ++ sep :: joinSep sep (l2 :: ls2) := rfl
      rw [hjoin]
      have hrec : splitSep sep (joinSep sep (l2 :: ls2)) = l2 :: ls2 :=
        ih (by simp) fun x hx => hfree x (by simp [hx])
      have hmid : splitSep sep (sep :: joinSep sep (l2 :: ls2)) =
          [] :: l2 :: ls2 := by
        rw [splitSep_cons_sep, hrec]
      have hl : ∀ d ∈ l, d ≠ sep := fun d hd he => hfree l (by simp) (he ▸ hd)
      rw [splitSep_sepfree_append sep l (sep :: joinSep sep (l2 :: ls2)) hl ([]) (l2 :: ls2) hmid]
      simp

theorem mem_splitSep_not_sep (sep : Nat) (x : List Nat) :
    ∀ w ∈ splitSep sep x, sep ∉ w := by
  induction x with
  | nil =>
    intro w hw
    simp [splitSep] at hw
    simp [hw]
  | cons c cs ih =>
    intro w hw
    cases hcs : splitSep sep cs with
    | nil => exact absurd hcs (splitSep_ne_nil sep cs)
    | cons w0 ws =>
      by_cases hc : c = sep
      · subst hc
        rw [splitSep_cons_sep, hcs] at hw
        rcases List.mem_cons.mp hw with h | h
        · simp [h]
        · exact ih w (by rw [hcs]; exact h)
      · rw [splitSep_cons_other sep c cs hc w0 ws hcs] at hw
        rcases List.mem_cons.mp hw with h | h
        · subst h
          intro hmem
          rcases List.mem_cons.mp hmem with h2 | h2
          · exact hc h2.symm
          · exact ih w0 (by rw [hcs]; simp) h2
        · exact ih w (by rw [hcs]; simp [h])

/-! ## Pass-through response parsing -/

theorem goodText_parts (t : List Nat) (hg : goodText t = true) :
    (∀ c, t.head? = some c → jsSpace c = false) ∧ ∀ c ∈ t, isLineTerm c = false := by
  have hg2 := hg
  unfold goodText at hg2
  obtain ⟨hh, hall⟩ := Bool.and_eq_true_iff.mp hg2
  constructor
  · intro c hc
    cases t with
    | nil => exact Option.noConfusion hc
    | cons a l =>
      have ha : a = c := by
        simpa using hc
      subst ha
      simpa using hh
  · intro c hc
    have := List.all_eq_true.mp hall c hc
    simpa using this

theorem promptLine_no_newline (k : Nat) (t : List Nat) (hg : goodText t = true) :
    (10 : Nat) ∉ promptLine k t := by
  obtain ⟨hh, hterm⟩ := goodText_parts t hg
  intro hmem
  unfold promptLine at hmem
  rcases List.mem_cons.mp hmem with h | h
  · omega
  · rcases List.mem_append.mp h with h | h
    · have := decRepr_digits k 10 h
      simp [isDigitCh] at this
    · rcases List.mem_cons.mp h with h | h
      · omega
      · rcases List.mem_cons.mp h with h | h
        · omega
        · rcases List.mem_cons.mp h with h | h
          · omega
          · have := hterm 10 h
            simp [isLineTerm] at this

theorem parseLine_promptLine (k : Nat) (t : List Nat) (hg : goodText t = true) :
    parseLine (promptLine k t) = some (decRepr k, t) := by
  obtain ⟨hhead, hterm⟩ := goodText_parts t hg
  have hdig : ∀ c ∈ decRepr k, isDigitCh c = true := decRepr_digits k
  have h93 : isDigitCh 93 = false := by decide
  unfold promptLine
  show parseLine (91 :: (decRepr k ++ 93 :: 58 :: 32 :: t)) = some (decRepr k, t)
  simp only [parseLine]
  rw [takeWhile_append_stop isDigitCh (decRepr k) 93 (58 :: 32 :: t) hdig h93]
  rw [dropWhile_append_stop isDigitCh (decRepr k) 93 (58 :: 32 :: t) hdig h93]
  have hne : (decRepr k).isEmpty = false := by
    cases hd : decRepr k with
    | nil => exact absurd hd (decRepr_ne_nil k)
    | cons a l => rfl
  rw [hne]
  simp only [Bool.false_eq_true, if_false]
  show some (decRepr k, ((32 :: t).dropWhile jsSpace).takeWhile fun c => !isLineTerm c) =
    some (decRepr k, t)
  rw [List.dropWhile_cons_of_pos (show jsSpace 32 = true by decide)]
  have hdrop2 : t.dropWhile jsSpace = t := by
    cases t with
    | nil => rfl
    | cons c cs =>
      have hc : jsSpace c = false := hhead c rfl
      simp [List.dropWhile, hc]
  have htake : t.takeWhile (fun c => !isLineTerm c) = t :=
    takeWhile_all _ t fun c hc => by simp [hterm c hc]
  rw [hdrop2, htake]

theorem applyLines_lookup (ts : List (List Nat)) :
    ∀ (m : TMap) (k q : Nat),
    lookupTM (applyLines m k ts) (decRepr q) =
      if k ≤ q ∧ q < k + ts.length then ts.get? (q - k) else lookupTM m (decRepr q) := by
  induction ts with
  | nil =>
    intro m k q
    simp only [List.length_nil, Nat.add_zero]
    rw [if_neg (by omega)]
    rfl
  | cons t ts ih =>
    intro m k q
    rw [show applyLines m k (t :: ts) = applyLines (updateTM m (decRepr k) t) (k + 1) ts from rfl]
    rw [ih]
    simp only [List.length_cons]
    by_cases hq : k + 1 ≤ q ∧ q < k + 1 + ts.length
    · rw [if_pos hq, if_pos (by omega)]
      have : q - k = (q - (k + 1)) + 1 := by omega
      rw [this]
      rfl
    · rw [if_neg hq]
      by_cases hq0 : q = k
      · subst hq0
        rw [if_pos (by omega)]
        have hupd : lookupTM (updateTM m (decRepr q) t) (decRepr q) = some t := by
          simp [lookupTM, updateTM]
        rw [hupd]
        simp
      · rw [if_neg (by omega)]
        have hne : decRepr q ≠ decRepr k := fun he => hq0 (decRepr_inj q k he)
        simp [lookupTM, updateTM, hne]

theorem applyLines_append (a b : List (List Nat)) :
    ∀ (m : TMap) (k : Nat),
    applyLines m k (a ++ b) = applyLines (applyLines m k a) (k + a.length) b := by
  induction a with
  | nil => intro m k; simp [applyLines]
  | cons t a ih =>
    intro m k
    rw [List.cons_append]
    rw [show applyLines m k (t :: (a ++ b)) =
      applyLines (updateTM m (decRepr k) t) (k + 1) (a ++ b) from rfl]
    rw [ih]
    have harith : k + 1 + a.length = k + (t :: a).length := by
      simp only [List.length_cons]
      omega
    rw [harith]
    rfl

theorem foldl_promptLines (chunk : List (List Nat)) :
    ∀ (m : TMap) (k : Nat), (∀ t ∈ chunk, goodText t = true) →
    (promptLines k chunk).foldl applyRespLine m = applyLines m k chunk := by
  induction chunk with
  | nil => intro m k _; rfl
  | cons t ts ih =>
    intro m k hg
    rw [show promptLines k (t :: ts) = promptLine k t :: promptLines (k + 1) ts from rfl]
    rw [List.foldl_cons]
    have hline : applyRespLine m (promptLine k t) = updateTM m (decRepr k) t := by
      unfold applyRespLine
      rw [parseLine_promptLine k t (hg t (by simp))]
    rw [hline, ih (updateTM m (decRepr k) t) (k + 1) fun x hx => hg x (by simp [hx])]
    rfl

theorem promptLines_mem (ls : List (List Nat)) :
    ∀ (s : Nat) (l : List Nat), l ∈ promptLines s ls →
      ∃ k2 t2, t2 ∈ ls ∧ l = promptLine k2 t2 := by
  induction ls with
  | nil => intro s l h; simp [promptLines] at h
  | cons x xs ih =>
    intro s l hl
    rw [show promptLines s (x :: xs) = promptLine s x :: promptLines (s + 1) xs from rfl] at hl
    rcases List.mem_cons.mp hl with h | h
    · exact ⟨s, x, by simp, h⟩
    · obtain ⟨k2, t2, hmem, heq⟩ := ih (s + 1) l h
      exact ⟨k2, t2, by simp [hmem], heq⟩

theorem applyResponse_chunkPrompt (start : Nat) (chunk : List (List Nat)) (m : TMap)
    (hg : ∀ t ∈ chunk, goodText t = true) :
    applyResponse m (chunkPrompt start chunk) = applyLines m start chunk := by
  cases chunk with
  | nil => rfl
  | cons t ts =>
    unfold applyResponse chunkPrompt
    have hsplit : splitSep 10 (joinSep 10 (promptLines start (t :: ts))) =
        promptLines start (t :: ts) := by
      apply splitSep_joinSep
      · simp [promptLines]
      · intro l hl
        obtain ⟨k2, t2, hmem, rfl⟩ := promptLines_mem (t :: ts) start l hl
        exact promptLine_no_newline k2 t2 (hg t2 hmem)
    rw [hsplit]
    exact foldl_promptLines (t :: ts) m start hg

theorem chunkLoop_foldl (fuel : Nat) :
    ∀ (i : Nat) (ts : List (List Nat)) (m : TMap), ts.length ≤ fuel →
    (∀ t ∈ ts, goodText t = true) →
    (chunkLoop 50 fuel i ts).foldl (fun m2 sc => applyResponse m2 (chunkPrompt sc.1 sc.2)) m =
      applyLines m i ts := by
  induction fuel with
  | zero =>
    intro i ts m hf _
    have : ts = [] := List.length_eq_zero.mp (by omega)
    subst this
    rfl
  | succ f ih =>
    intro i ts m hf hg
    cases ts with
    | nil => rfl
    | cons t ts2 =>
      rw [show chunkLoop 50 (f + 1) i (t :: ts2) =
        (i, (t :: ts2).take 50) :: chunkLoop 50 f (i + 50) ((t :: ts2).drop 50) from rfl]
      rw [List.foldl_cons]
      rw [applyResponse_chunkPrompt i ((t :: ts2).take 50) m
        fun x hx => hg x (List.mem_of_mem_take hx)]
      rw [ih (i + 50) ((t :: ts2).drop 50) (applyLines m i ((t :: ts2).take 50))
        (by
          simp only [List.length_drop, List.length_cons]
          simp only [List.length_cons] at hf
          omega)
        fun x hx => hg x (List.mem_of_mem_drop hx)]
      by_cases hlen : 50 ≤ (t :: ts2).length
      · have htk : (List.take 50 (t :: ts2)).length = 50 := by
          rw [List.length_take]
          omega
        rw [show i + 50 = i + (List.take 50 (t :: ts2)).length from by rw [htk]]
        rw [← applyLines_append, List.take_append_drop]
      · have hdrop : List.drop 50 (t :: ts2) = [] := List.drop_eq_nil_of_le (by omega)
        have htake : List.take 50 (t :: ts2) = t :: ts2 := List.take_of_length_le (by omega)
        rw [hdrop, htake]
        rfl

theorem passthroughTranslations_lookup (ts : List (List Nat))
    (hg : ∀ t ∈ ts, goodText t = true) (q : Nat) :
    lookupTM (passthroughTranslations ts) (decRepr q) = ts.get? q := by
  unfold passthroughTranslations chunksWithStart
  rw [chunkLoop_foldl ts.length 0 ts emptyTM (Nat.le_refl _) hg]
  rw [applyLines_lookup]
  by_cases hq : q < ts.length
  · rw [if_pos (by omega)]
    simp
  · rw [if_neg (by omega)]
    rw [show lookupTM emptyTM (decRepr q) = none from rfl]
    rw [List.get?_eq_none.mpr (by omega)]

/-! ## Reassembly against an exact translation map -/

theorem extractParts_cons (p : PptxPart) (rest : List PptxPart) :
    extractParts (p :: rest) =
      (if isSlideName p.name then extractRunTexts p.segs else []) ++ extractParts rest := by
  unfold extractParts
  by_cases h : isSlideName p.name <;> simp [h]

theorem replaceRuns_exact (segs : List SlideSeg) :
    ∀ (tm : TMap) (idx : Nat),
    (∀ j, j < countUnits segs → lookupTM tm (decRepr (idx + j)) = (extractRunTexts segs).get? j) →
    replaceRuns tm segs idx = (segs.map sanitizeSeg, idx + countUnits segs) := by
  induction segs with
  | nil =>
    intro tm idx h
    simp [replaceRuns, countUnits, extractRunTexts]
  | cons s rest ih =>
    intro tm idx h
    cases s with
    | raw s0 =>
      have hcount : countUnits (SlideSeg.raw s0 :: rest) = countUnits rest := by
        simp [countUnits, extractRunTexts]
      have hex : extractRunTexts (SlideSeg.raw s0 :: rest) = extractRunTexts rest := by
        simp [extractRunTexts]
      rw [show replaceRuns tm (SlideSeg.raw s0 :: rest) idx =
        (SlideSeg.raw s0 :: (replaceRuns tm rest idx).1, (replaceRuns tm rest idx).2) from rfl]
      rw [ih tm idx (by
        intro j hj
        have := h j (by rw [hcount]; exact hj)
        rw [hex] at this
        exact this)]
      simp [sanitizeSeg, hcount]
    | run t =>
      by_cases h0 : trimNonempty t = true
      · have hcount : countUnits (SlideSeg.run t :: rest) = countUnits rest + 1 := by
          simp [countUnits, extractRunTexts, h0]
        have hex : extractRunTexts (SlideSeg.run t :: rest) = t :: extractRunTexts rest := by
          simp [extractRunTexts, h0]
        have hlook : lookupTM tm (decRepr idx) = some t := by
          have := h 0 (by omega)
          rw [hex] at this
          simpa using this
        rw [show replaceRuns tm (SlideSeg.run t :: rest) idx =
          (if trimNonempty t then
            (SlideSeg.run (cleanText (match lookupTM tm (decRepr idx) with
              | some v => if v = [] then t else v
              | none => t)) :: (replaceRuns tm rest (idx + 1)).1,
             (replaceRuns tm rest (idx + 1)).2)
          else (SlideSeg.run t :: (replaceRuns tm rest idx).1,
             (replaceRuns tm rest idx).2)) from rfl]
        rw [if_pos h0, hlook]
        rw [show (match some t with
          | some v => if v = [] then t else v
          | none => t) = t from by
            show (if t = [] then t else t) = t
            split_ifs <;> rfl]
        rw [ih tm (idx + 1) (by
          intro j hj
          have harith : idx + 1 + j = idx + (j + 1) := by omega
          rw [harith]
          have := h (j + 1) (by omega)
          rw [hex] at this
          exact this)]
        rw [hcount]
        have harith2 : idx + 1 + countUnits rest = idx + (countUnits rest + 1) := by omega
        rw [harith2]
        have hseg : sanitizeSeg (SlideSeg.run t) = SlideSeg.run (cleanText t) := by
          simp [sanitizeSeg, h0]
        simp [hseg]
      · have hcount : countUnits (SlideSeg.run t :: rest) = countUnits rest := by
          simp [countUnits, extractRunTexts, h0]
        have hex : extractRunTexts (SlideSeg.run t :: rest) = extractRunTexts rest := by
          simp [extractRunTexts, h0]
        rw [show replaceRuns tm (SlideSeg.run t :: rest) idx =
          (if trimNonempty t then
            (SlideSeg.run (cleanText (match lookupTM tm (decRepr idx) with
              | some v => if v = [] then t else v
              | none => t)) :: (replaceRuns tm rest (idx + 1)).1,
             (replaceRuns tm rest (idx + 1)).2)
          else (SlideSeg.run t :: (replaceRuns tm rest idx).1,
             (replaceRuns tm rest idx).2)) from rfl]
        rw [if_neg h0]
        rw [ih tm idx (by
          intro j hj
          have := h j (by rw [hcount]; exact hj)
          rw [hex] at this
          exact this)]
        have hseg : sanitizeSeg (SlideSeg.run t) = SlideSeg.run t := by
          simp [sanitizeSeg, h0]
        simp [hseg, hcount]

theorem reassembleParts_exact (ps : List PptxPart) :
    ∀ (tm : TMap) (idx : Nat),
    (∀ j, j < (extractParts ps).length →
      lookupTM tm (decRepr (idx + j)) = (extractParts ps).get? j) →
    reassembleParts tm ps idx = expectedSanitized ps := by
  induction ps with
  | nil => intro tm idx h; rfl
  | cons p rest ih =>
    intro tm idx h
    have hcons := extractParts_cons p rest
    by_cases hs : isSlideName p.name = true
    · rw [if_pos hs] at hcons
      have hlen : countUnits p.segs = (extractRunTexts p.segs).length := rfl
      have hrepl := replaceRuns_exact p.segs tm idx (by
        intro j hj
        have := h j (by
          rw [hcons, List.length_append]
          omega)
        rw [hcons, List.get?_append (by rw [← hlen]; exact hj)] at this
        exact this)
      rw [show reassembleParts tm (p :: rest) idx =
        (if isSlideName p.name then
          { name := p.name, segs := (replaceRuns tm p.segs idx).1 } ::
            reassembleParts tm rest (replaceRuns tm p.segs idx).2
        else p :: reassembleParts tm rest idx) from rfl]
      rw [if_pos hs, hrepl]
      rw [ih tm (idx + countUnits p.segs) (by
        intro j hj
        have harith : idx + countUnits p.segs + j = idx + (countUnits p.segs + j) := by omega
        rw [harith]
        have := h (countUnits p.segs + j) (by
          rw [hcons, List.length_append, hlen]
          omega)
        rw [hcons, List.get?_append_right (by rw [← hlen]; omega)] at this
        have harg : countUnits p.segs + j - (extractRunTexts p.segs).length = j := by
          rw [← hlen]
          omega
        rw [harg] at this
        exact this)]
      show { name := p.name, segs := p.segs.map sanitizeSeg } :: expectedSanitized rest =
        expectedSanitized (p :: rest)
      unfold expectedSanitized
      rw [List.map_cons, if_pos hs]
    · rw [show reassembleParts tm (p :: rest) idx =
        (if isSlideName p.name then
          { name := p.name, segs := (replaceRuns tm p.segs idx).1 } ::
            reassembleParts tm rest (replaceRuns tm p.segs idx).2
        else p :: reassembleParts tm rest idx) from rfl]
      rw [if_neg hs]
      rw [if_neg hs, List.nil_append] at hcons
      rw [ih tm idx (by
        intro j hj
        rw [← hcons]
        exact h j (by rw [hcons]; exact hj))]
      show p :: expectedSanitized rest = expectedSanitized (p :: rest)
      unfold expectedSanitized
      rw [List.map_cons, if_neg hs]

/-- C1, counterexample to the claim as stated: a slide whose only run is
" hi" (leading space, trim-nonempty).  The prompt line is "[0]:  hi", the
response regex `\s*` swallows the leading space, so the pass-through round
trip rewrites the run to "hi" instead of `cleanText " hi"` = " hi". -/
theorem pptx_roundtrip_leading_space_fails :
    pptxPassthroughReassembly
        [{ name := slideNamePre ++ [49] ++ xmlSuf, segs := [SlideSeg.run [32, 104, 105]] }] =
      [{ name := slideNamePre ++ [49] ++ xmlSuf, segs := [SlideSeg.run [104, 105]] }] ∧
    expectedSanitized
        [{ name := slideNamePre ++ [49] ++ xmlSuf, segs := [SlideSeg.run [32, 104, 105]] }] =
      [{ name := slideNamePre ++ [49] ++ xmlSuf, segs := [SlideSeg.run [32, 104, 105]] }] ∧
    pptxPassthroughReassembly
        [{ name := slideNamePre ++ [49] ++ xmlSuf, segs := [SlideSeg.run [32, 104, 105]] }] ≠
      expectedSanitized
        [{ name := slideNamePre ++ [49] ++ xmlSuf, segs := [SlideSeg.run [32, 104, 105]] }] := by
  refine ⟨by decide, by decide, ?_⟩
  intro he
  have h1 : pptxPassthroughReassembly
      [{ name := slideNamePre ++ [49] ++ xmlSuf, segs := [SlideSeg.run [32, 104, 105]] }] =
      [{ name := slideNamePre ++ [49] ++ xmlSuf, segs := [SlideSeg.run [104, 105]] }] := by
    decide
  have h2 : expectedSanitized
      [{ name := slideNamePre ++ [49] ++ xmlSuf, segs := [SlideSeg.run [32, 104, 105]] }] =
      [{ name := slideNamePre ++ [49] ++ xmlSuf, segs := [SlideSeg.run [32, 104, 105]] }] := by
    decide
  rw [h1, h2] at he
  exact absurd he (by decide)

/-- C1, amended: under a pass-through oracle the PPTX round trip rewrites
every trim-nonempty run of a slide part to the `cleanText` of its original
text, in unchanged order, and leaves everything else unchanged — provided
no extracted run text begins with whitespace (the response regex `\s*`
would strip it) or contains a line-terminator unit (response line
splitting and the `.` atom would truncate it). -/
theorem pptx_passthrough_roundtrip (ps : List PptxPart)
    (hgood : ∀ t ∈ extractParts ps, goodText t = true) :
    pptxPassthroughReassembly ps = expectedSanitized ps := by
  unfold pptxPassthroughReassembly
  apply reassembleParts_exact
  intro j hj
  rw [Nat.zero_add]
  exact passthroughTranslations_lookup (extractParts ps) hgood j

theorem pptx_passthrough_roundtrip_witness :
    (∀ t ∈ extractParts
        [{ name := slideNamePre ++ [49] ++ xmlSuf,
           segs := [SlideSeg.raw [60, 112, 62], SlideSeg.run [72, 8230], SlideSeg.run [32, 9]] },
         { name := [100, 111, 99], segs := [SlideSeg.raw [122]] }],
      goodText t = true) ∧
    pptxPassthroughReassembly
        [{ name := slideNamePre ++ [49] ++ xmlSuf,
           segs := [SlideSeg.raw [60, 112, 62], SlideSeg.run [72, 8230], SlideSeg.run [32, 9]] },
         { name := [100, 111, 99], segs := [SlideSeg.raw [122]] }] =
      expectedSanitized
        [{ name := slideNamePre ++ [49] ++ xmlSuf,
           segs := [SlideSeg.raw [60, 112, 62], SlideSeg.run [72, 8230], SlideSeg.run [32, 9]] },
         { name := [100, 111, 99], segs := [SlideSeg.raw [122]] }] :=
  ⟨by decide, pptx_passthrough_roundtrip _ (by decide)⟩

/-! ## PDF layout: cursor invariants -/

theorem allSteps_snoc {α : Type} (P : α → α → Prop) :
    ∀ (xs : List α) (b : α),
    allSteps P (xs ++ [b]) ↔ allSteps P xs ∧ (∀ a, xs.getLast? = some a → P a b) := by
  intro xs
  induction xs with
  | nil =>
    intro b
    simp [allSteps]
  | cons x xs ih =>
    intro b
    cases xs with
    | nil =>
      show allSteps P [x, b] ↔ allSteps P [x] ∧ ∀ a, some x = some a → P a b
      constructor
      · intro h
        exact ⟨trivial, fun a ha => by cases ha; exact h.1⟩
      · intro h
        exact ⟨h.2 x rfl, trivial⟩
    | cons y t =>
      show P x y ∧ allSteps P ((y :: t) ++ [b]) ↔
        (P x y ∧ allSteps P (y :: t)) ∧ ∀ a, (y :: t).getLast? = some a → P a b
      rw [ih b]
      constructor
      · intro ⟨h1, h2, h3⟩
        exact ⟨⟨h1, h2⟩, h3⟩
      · intro ⟨⟨h1, h2⟩, h3⟩
        exact ⟨h1, h2, h3⟩

theorem stInv_init (hgt : ℚ) :
    stInv hgt { page := 0, y := hgt - 50, evs := [] } := by
  unfold stInv
  exact ⟨trivial, by simp, by simp, le_refl _, rfl, rfl⟩

theorem stInv_draw (hgt adv : ℚ) (st : LayoutSt) (chunk : List Nat)
    (hinv : stInv hgt st) (hy : 62 ≤ st.y) (hadv : 17 ≤ adv) :
    stInv hgt (drawFlush st chunk adv) := by
  obtain ⟨hchain, hbounds, hhead, hyle, hlast⟩ := hinv
  unfold drawFlush stInv
  refine ⟨?_, ?_, ?_, ?_, ?_⟩
  · rw [allSteps_snoc]
    refine ⟨hchain, ?_⟩
    intro a ha
    rw [ha] at hlast
    unfold evStep
    rcases hlast with ⟨hp, hy2⟩ | ⟨hp, hy2⟩
    · exact Or.inl ⟨hp.symm ▸ rfl, by simp; linarith⟩
    · exact Or.inr ⟨by simp [hp], by simp [hy2]⟩
  · intro e he
    rcases List.mem_append.mp he with h | h
    · exact hbounds e h
    · simp at h
      subst h
      exact ⟨hy, hyle⟩
  · intro e he
    cases hevs : st.evs with
    | nil =>
      rw [hevs] at he hlast
      simp at he
      rw [← he]
      exact hlast.2
    | cons e0 rest =>
      rw [hevs] at he
      rw [List.cons_append, List.head?_cons] at he
      have he0 : e0 = e := by
        simpa using he
      subst he0
      exact hhead e0 (by rw [hevs]; rfl)
  · simp
    linarith
  · rw [List.getLast?_concat]
    exact Or.inl ⟨rfl, by simp; linarith⟩

theorem stInv_break (hgt : ℚ) (st : LayoutSt) (hinv : stInv hgt st) (hH : 112 ≤ hgt) :
    stInv hgt (pageBreakIfNeeded hgt st) ∧ 62 ≤ (pageBreakIfNeeded hgt st).y := by
  obtain ⟨hchain, hbounds, hhead, hyle, hlast⟩ := hinv
  unfold pageBreakIfNeeded
  split_ifs with hlt
  · refine ⟨⟨hchain, hbounds, hhead, by simp, ?_⟩, by simp; linarith⟩
    cases hgl : st.evs.getLast? with
    | none =>
      rw [hgl] at hlast
      exfalso
      have h2 : st.y = hgt - 50 := hlast.2
      norm_num at hlt
      linarith
    | some a =>
      rw [hgl] at hlast
      show (st.page + 1 = a.page ∧ hgt - 50 ≤ a.y - 17) ∨
        (st.page + 1 = a.page + 1 ∧ hgt - 50 = hgt - 50)
      rcases hlast with ⟨hp, hy2⟩ | ⟨hp, hy2⟩
      · exact Or.inr ⟨by rw [hp], rfl⟩
      · exfalso
        norm_num at hlt
        rw [hy2] at hlt
        linarith
  · exact ⟨⟨hchain, hbounds, hhead, hyle, hlast⟩, by norm_num at hlt; linarith⟩

theorem wordsLoop_inv (measure : List Nat → Option ℚ) (maxW hgt : ℚ) (hH : 112 ≤ hgt) :
    ∀ (ws : List (List Nat)) (st : LayoutSt) (cur : List Nat) (st2 : LayoutSt)
      (cur2 : List Nat),
    wordsLoop measure maxW hgt ws st cur = some (st2, cur2) →
    stInv hgt st → 62 ≤ st.y →
    stInv hgt st2 ∧ 62 ≤ st2.y := by
  intro ws
  induction ws with
  | nil =>
    intro st cur st2 cur2 heq hinv hy
    have h2 : st = st2 ∧ cur = cur2 := by
      unfold wordsLoop at heq
      simpa using heq
    rw [← h2.1]
    exact ⟨hinv, hy⟩
  | cons w ws ih =>
    intro st cur st2 cur2 heq hinv hy
    rw [show wordsLoop measure maxW hgt (w :: ws) st cur =
      (match effWidth measure cur w with
       | none => none
       | some tw =>
         if maxW < tw then
           wordsLoop measure maxW hgt ws
             (pageBreakIfNeeded hgt (drawFlush st cur (12 + 5))) w
         else
           wordsLoop measure maxW hgt ws st (testLineOf cur w)) from rfl] at heq
    cases hm : effWidth measure cur w with
    | none =>
      rw [hm] at heq
      exact Option.noConfusion heq
    | some tw =>
      rw [hm] at heq
      have heq2 : (if maxW < tw then
          wordsLoop measure maxW hgt ws (pageBreakIfNeeded hgt (drawFlush st cur (12 + 5))) w
        else wordsLoop measure maxW hgt ws st (testLineOf cur w)) = some (st2, cur2) := heq
      by_cases hover : maxW < tw
      · rw [if_pos hover] at heq2
        have hdraw := stInv_draw hgt (12 + 5) st cur hinv hy (by norm_num)
        have hbreak := stInv_break hgt (drawFlush st cur (12 + 5)) hdraw hH
        exact ih _ w st2 cur2 heq2 hbreak.1 hbreak.2
      · rw [if_neg hover] at heq2
        exact ih st (testLineOf cur w) st2 cur2 heq2 hinv hy

theorem lineLoop_inv (measure : List Nat → Option ℚ) (maxW hgt : ℚ) (hH : 112 ≤ hgt) :
    ∀ (lines : List (List Nat)) (st st2 : LayoutSt),
    lineLoop measure maxW hgt lines st = some st2 →
    stInv hgt st →
    stInv hgt st2 := by
  intro lines
  induction lines with
  | nil =>
    intro st st2 heq hinv
    have h2 : st = st2 := by
      simpa [lineLoop] using heq
    rw [← h2]
    exact hinv
  | cons line rest ih =>
    intro st st2 heq hinv
    rw [show lineLoop measure maxW hgt (line :: rest) st =
      (match wordsLoop measure maxW hgt (splitSep 32 line) (pageBreakIfNeeded hgt st) [] with
       | none => none
       | some stc =>
         lineLoop measure maxW hgt rest
           (if stc.2.isEmpty then stc.1 else drawFlush stc.1 stc.2 (12 + 10))) from rfl] at heq
    have hbreak := stInv_break hgt st hinv hH
    cases hw : wordsLoop measure maxW hgt (splitSep 32 line) (pageBreakIfNeeded hgt st) [] with
    | none =>
      rw [hw] at heq
      exact Option.noConfusion heq
    | some stc =>
      rw [hw] at heq
      have hwinv := wordsLoop_inv measure maxW hgt hH (splitSep 32 line)
        (pageBreakIfNeeded hgt st) [] stc.1 stc.2 (by rw [hw]) hbreak.1 hbreak.2
      apply ih _ st2 heq
      by_cases hc : stc.2.isEmpty
      · rw [if_pos hc]
        exact hwinv.1
      · rw [if_neg hc]
        exact stInv_draw hgt (12 + 10) stc.1 stc.2 hwinv.1 hwinv.2 (by norm_num)

/-- C5. For every width oracle and every input text, when the layout
succeeds its draw sequence satisfies the cursor invariant: consecutive
draws either stay on the same page with a strictly lower baseline or move
to the next page with the baseline reset to the top margin
`height - margin`; every draw sits at or above the bottom margin; the
first draw of the document sits at the top margin.  The hypothesis
`112 ≤ height` states that a page holds at least one line
(`margin + fontSize ≤ height - margin`), true of the code's A4-sized
pages. -/
theorem pdf_layout_cursor_invariants (measure : List Nat → Option ℚ) (wid hgt : ℚ)
    (text : List Nat) (evs : List DrawEv) (hH : 112 ≤ hgt)
    (h : layoutText measure wid hgt text = some evs) :
    allSteps (evStep hgt) evs ∧ (∀ e ∈ evs, 50 ≤ e.y) ∧
    (∀ e, evs.head? = some e → e.y = hgt - 50) := by
  unfold layoutText at h
  cases hl : lineLoop measure (wid - 50 * 2) hgt (splitSep 10 text)
      { page := 0, y := hgt - 50, evs := [] } with
  | none =>
    rw [hl] at h
    exact Option.noConfusion h
  | some st =>
    rw [hl] at h
    have hevs : st.evs = evs := by
      simpa using h
    have hinv := lineLoop_inv measure (wid - 50 * 2) hgt hH (splitSep 10 text)
      { page := 0, y := hgt - 50, evs := [] } st hl (stInv_init hgt)
    obtain ⟨hchain, hbounds, hhead, _, _⟩ := hinv
    rw [hevs] at hchain hbounds hhead
    refine ⟨hchain, ?_, hhead⟩
    intro e he
    have := (hbounds e he).1
    linarith

theorem pdf_layout_cursor_invariants_witness :
    (112 : ℚ) ≤ 200 ∧
    layoutText zeroMeasure 200 200 [97, 98] = some [{ page := 0, y := 150, text := [97, 98] }] ∧
    (allSteps (evStep 200) [{ page := 0, y := 150, text := [97, 98] }] ∧
     (∀ e ∈ [({ page := 0, y := 150, text := [97, 98] } : DrawEv)], 50 ≤ e.y) ∧
     (∀ e, [({ page := 0, y := 150, text := [97, 98] } : DrawEv)].head? = some e →
        e.y = 200 - 50)) :=
  ⟨by norm_num,
   by norm_num [layoutText, lineLoop, wordsLoop, effWidth, testLineOf, pageBreakIfNeeded,
     drawFlush, splitSep, zeroMeasure, show cleanText [97, 98] = [97, 98] from by decide],
   pdf_layout_cursor_invariants zeroMeasure 200 200 [97, 98]
     [{ page := 0, y := 150, text := [97, 98] }] (by norm_num)
     (by norm_num [layoutText, lineLoop, wordsLoop, effWidth, testLineOf, pageBreakIfNeeded,
       drawFlush, splitSep, zeroMeasure, show cleanText [97, 98] = [97, 98] from by decide])⟩

/-! ## PDF layout: word accounting -/

theorem splitSep_append_sep (sep : Nat) :
    ∀ (a b : List Nat), splitSep sep (a ++ sep :: b) = splitSep sep a ++ splitSep sep b := by
  intro a
  induction a with
  | nil =>
    intro b
    rw [List.nil_append, splitSep_cons_sep]
    rfl
  | cons c a ih =>
    intro b
    rw [List.cons_append]
    by_cases hc : c = sep
    · subst hc
      rw [splitSep_cons_sep, splitSep_cons_sep, ih b, List.cons_append]
    · cases ha : splitSep sep (a ++ sep :: b) with
      | nil => exact absurd ha (splitSep_ne_nil sep _)
      | cons w ws =>
        rw [splitSep_cons_other sep c (a ++ sep :: b) hc w ws ha]
        cases ha2 : splitSep sep a with
        | nil => exact absurd ha2 (splitSep_ne_nil sep a)
        | cons w2 ws2 =>
          rw [splitSep_cons_other sep c a hc w2 ws2 ha2]
          rw [ih b, ha2] at ha
          have hw : w2 = w ∧ ws2 ++ splitSep sep b = ws := by
            rw [List.cons_append] at ha
            exact ⟨(List.cons.injEq _ _ _ _ ▸ ha).1, (List.cons.injEq _ _ _ _ ▸ ha).2⟩
          rw [List.cons_append, hw.1, hw.2]

theorem splitSep_cleanText (x : List Nat) :
    splitSep 32 (cleanText x) = (splitSep 32 x).map cleanText := by
  induction x with
  | nil => rfl
  | cons c cs ih =>
    rw [cleanText_cons]
    by_cases hc : c = 32
    · subst hc
      rw [show cleanChar 32 = [32] from by decide]
      rw [List.singleton_append, splitSep_cons_sep, splitSep_cons_sep, ih, List.map_cons]
      rfl
    · cases hcs : splitSep 32 (cleanText cs) with
      | nil => exact absurd hcs (splitSep_ne_nil 32 _)
      | cons w ws =>
        have hfree : ∀ d ∈ cleanChar c, d ≠ 32 := by
          intro d hd he
          exact cleanChar_not32 c hc (he ▸ hd)
        rw [splitSep_sepfree_append 32 (cleanChar c) (cleanText cs) hfree w ws hcs]
        cases hcs2 : splitSep 32 cs with
        | nil => exact absurd hcs2 (splitSep_ne_nil 32 cs)
        | cons w2 ws2 =>
          rw [splitSep_cons_other 32 c cs hc w2 ws2 hcs2]
          rw [ih, hcs2, List.map_cons] at hcs
          have hw : cleanText w2 = w ∧ List.map cleanText ws2 = ws :=
            ⟨(List.cons.injEq _ _ _ _ ▸ hcs).1, (List.cons.injEq _ _ _ _ ▸ hcs).2⟩
          rw [List.map_cons, ← hw.1, ← hw.2, ← cleanText_cons]

theorem cleanText_isEmpty (u : List Nat) : (cleanText u).isEmpty = u.isEmpty := by
  cases u with
  | nil => rfl
  | cons c cs =>
    have h1 : cleanText (c :: cs) ≠ [] := cleanText_ne_nil (c :: cs) (by simp)
    cases hc : cleanText (c :: cs) with
    | nil => exact absurd hc h1
    | cons d ds => rfl

theorem filter_map_cleanText (l : List (List Nat)) :
    (l.map cleanText).filter (fun x => !x.isEmpty) =
      (l.filter fun x => !x.isEmpty).map cleanText := by
  induction l with
  | nil => rfl
  | cons u l ih =>
    rw [List.map_cons, List.filter_cons, List.filter_cons, cleanText_isEmpty]
    by_cases hu : (!u.isEmpty) = true
    · rw [if_pos hu, if_pos hu, List.map_cons, ih]
    · rw [if_neg hu, if_neg hu, ih]

theorem drawnWords_append (evs1 evs2 : List DrawEv) :
    drawnWords (evs1 ++ evs2) = drawnWords evs1 ++ drawnWords evs2 := by
  unfold drawnWords
  rw [List.map_append, List.map_append, List.flatten_append, List.filter_append]

theorem drawnWords_single (p : Nat) (y : ℚ) (cur : List Nat) :
    drawnWords [{ page := p, y := y, text := cleanText cur }] =
      (lineWords cur).map cleanText := by
  unfold drawnWords lineWords
  simp only [List.map_cons, List.map_nil, List.flatten]
  rw [splitSep_cleanText]
  simp only [List.append_nil]
  exact filter_map_cleanText (splitSep 32 cur)

theorem lineWords_nil : lineWords [] = [] := rfl

theorem lineWords_single (w : List Nat) (hfree : (32 : Nat) ∉ w) :
    lineWords w = [w].filter fun x => !x.isEmpty := by
  unfold lineWords
  rw [splitSep_not_mem 32 w hfree]

theorem lineWords_testLine (cur w : List Nat) (hfree : (32 : Nat) ∉ w) :
    lineWords (testLineOf cur w) = lineWords cur ++ ([w].filter fun x => !x.isEmpty) := by
  unfold testLineOf
  by_cases hc : cur.isEmpty
  · rw [if_pos hc]
    have hcur : cur = [] := by
      cases cur with
      | nil => rfl
      | cons a l => exact Bool.noConfusion hc
    rw [hcur, lineWords_nil, List.nil_append]
    exact lineWords_single w hfree
  · rw [if_neg hc]
    unfold lineWords
    rw [splitSep_append_sep 32 cur w, List.filter_append, splitSep_not_mem 32 w hfree]

theorem pageBreak_evs (hgt : ℚ) (st : LayoutSt) :
    (pageBreakIfNeeded hgt st).evs = st.evs := by
  unfold pageBreakIfNeeded
  split_ifs <;> rfl

theorem wordsLoop_total (w : List Nat → ℚ) (maxW hgt : ℚ) :
    ∀ (ws : List (List Nat)) (st : LayoutSt) (cur : List Nat),
    (∀ x ∈ ws, (32 : Nat) ∉ x) →
    ∃ st2 cur2,
      wordsLoop (fun s => some (w s)) maxW hgt ws st cur = some (st2, cur2) ∧
      drawnWords st2.evs ++ (lineWords cur2).map cleanText =
        drawnWords st.evs ++ (lineWords cur).map cleanText ++
          ((ws.filter fun x => !x.isEmpty).map cleanText) := by
  intro ws
  induction ws with
  | nil =>
    intro st cur _
    exact ⟨st, cur, rfl, by simp⟩
  | cons w0 ws ih =>
    intro st cur hfree
    have hw0 : (32 : Nat) ∉ w0 := hfree w0 (by simp)
    have hstep : wordsLoop (fun s => some (w s)) maxW hgt (w0 :: ws) st cur =
        (if maxW < w (testLineOf cur w0) then
          wordsLoop (fun s => some (w s)) maxW hgt ws
            (pageBreakIfNeeded hgt (drawFlush st cur (12 + 5))) w0
        else
          wordsLoop (fun s => some (w s)) maxW hgt ws st (testLineOf cur w0)) := rfl
    by_cases hover : maxW < w (testLineOf cur w0)
    · obtain ⟨st2, cur2, heq, he⟩ := ih (pageBreakIfNeeded hgt (drawFlush st cur (12 + 5))) w0
        fun x hx => hfree x (by simp [hx])
      refine ⟨st2, cur2, by rw [hstep, if_pos hover]; exact heq, ?_⟩
      rw [he, pageBreak_evs]
      rw [show (drawFlush st cur (12 + 5)).evs =
        st.evs ++ [{ page := st.page, y := st.y, text := cleanText cur }] from rfl]
      rw [drawnWords_append, drawnWords_single, lineWords_single w0 hw0]
      rw [List.filter_cons]
      by_cases h0 : (!w0.isEmpty) = true
      · rw [if_pos h0]
        simp [h0, List.append_assoc]
      · rw [if_neg h0]
        simp only [Bool.not_eq_true] at h0
        simp [h0, List.append_assoc]
    · obtain ⟨st2, cur2, heq, he⟩ := ih st (testLineOf cur w0)
        fun x hx => hfree x (by simp [hx])
      refine ⟨st2, cur2, by rw [hstep, if_neg hover]; exact heq, ?_⟩
      rw [he, lineWords_testLine cur w0 hw0]
      rw [List.filter_cons]
      by_cases h0 : (!w0.isEmpty) = true
      · rw [if_pos h0]
        simp [h0, List.append_assoc]
      · rw [if_neg h0]
        simp only [Bool.not_eq_true] at h0
        simp [h0, List.append_assoc]

theorem lineLoop_total (w : List Nat → ℚ) (maxW hgt : ℚ) :
    ∀ (lines : List (List Nat)) (st : LayoutSt),
    ∃ st2, lineLoop (fun s => some (w s)) maxW hgt lines st = some st2 ∧
      drawnWords st2.evs =
        drawnWords st.evs ++ ((lines.map lineWords).flatten).map cleanText := by
  intro lines
  induction lines with
  | nil =>
    intro st
    exact ⟨st, rfl, by simp⟩
  | cons line rest ih =>
    intro st
    obtain ⟨stc, cur2, hwl, he⟩ := wordsLoop_total w maxW hgt (splitSep 32 line)
      (pageBreakIfNeeded hgt st) [] fun x hx => mem_splitSep_not_sep 32 line x hx
    have hlw : (splitSep 32 line).filter (fun x => !x.isEmpty) = lineWords line := rfl
    rw [lineWords_nil, pageBreak_evs] at he
    simp only [List.map_nil, List.append_nil] at he
    rw [hlw] at he
    set st3 := if cur2.isEmpty then stc else drawFlush stc cur2 (12 + 10) with hst3
    have hdrawn3 : drawnWords st3.evs =
        drawnWords stc.evs ++ (lineWords cur2).map cleanText := by
      rw [hst3]
      by_cases hc : cur2.isEmpty
      · rw [if_pos hc]
        have hcur : cur2 = [] := by
          cases cur2 with
          | nil => rfl
          | cons a l => exact Bool.noConfusion hc
        rw [hcur, lineWords_nil]
        simp
      · rw [if_neg hc]
        rw [show (drawFlush stc cur2 (12 + 10)).evs =
          stc.evs ++ [{ page := stc.page, y := stc.y, text := cleanText cur2 }] from rfl]
        rw [drawnWords_append, drawnWords_single]
    obtain ⟨st2, hll, he2⟩ := ih st3
    refine ⟨st2, ?_, ?_⟩
    · rw [show lineLoop (fun s => some (w s)) maxW hgt (line :: rest) st =
        (match wordsLoop (fun s => some (w s)) maxW hgt (splitSep 32 line)
            (pageBreakIfNeeded hgt st) [] with
         | none => none
         | some stc2 =>
           lineLoop (fun s => some (w s)) maxW hgt rest
             (if stc2.2.isEmpty then stc2.1 else drawFlush stc2.1 stc2.2 (12 + 10))) from rfl]
      rw [hwl]
      exact hll
    · rw [he2, hdrawn3, he]
      simp [List.append_assoc]

/-- C6, counterexample to the claim as stated: a width oracle that throws
on every measurement.  On the one-word text "a" the first measurement and
its `currentLine || word` fallback both throw (they measure the same
string), the exception escapes, the layout crashes and nothing is drawn. -/
theorem pdf_wrap_crash_on_failing_measure :
    layoutText noMeasure 200 200 [97] = none := by
  norm_num [layoutText, lineLoop, wordsLoop, effWidth, testLineOf, pageBreakIfNeeded,
    splitSep, noMeasure]

/-- C6, amended: for every total width oracle (one that never throws) —
including oracles that measure some single word wider than
`pageWidth - 2 * margin` — the greedy wrap terminates without crashing and
the drawn output contains exactly the nonempty words of every source line,
sanitized, in order: the oversized word is drawn and no later word of its
line is dropped. -/
theorem pdf_wrap_no_word_dropped (w : List Nat → ℚ) (wid hgt : ℚ) (text : List Nat) :
    ∃ evs, layoutText (fun s => some (w s)) wid hgt text = some evs ∧
      drawnWords evs = (((splitSep 10 text).map lineWords).flatten).map cleanText := by
  obtain ⟨st2, hll, he⟩ := lineLoop_total w (wid - 50 * 2) hgt (splitSep 10 text)
    { page := 0, y := hgt - 50, evs := [] }
  refine ⟨st2.evs, ?_, ?_⟩
  · unfold layoutText
    rw [hll]
  · rw [he]
    rfl
